import Mathlib

set_option linter.unusedSectionVars false

/-!
Shallow embedding of `src/curves/main.cpp`.

The program defines three parametric space curves (Circle, Ellipse, Helix)
behind a common `Curve` interface with `radius()`, `point(t)` and
`derivative(t)`; builds a random collection of 10 curves; filters out the
entries whose runtime type is exactly `Circle` (via `dynamic_cast`); sorts
that subview by ascending `radius()`; and sums the radii with an OpenMP
parallel for loop over 4 threads that accumulates into one shared double.

`double` is idealised as a linear ordered field (instantiated at `ℝ` for the
trigonometric claims and at `ℚ` for executable witnesses); `M_PI` is
idealised as `Real.pi`.
-/

/-- The runtime variants of the abstract C++ class `Curve`: a tagged sum of
`Circle{radius_}`, `Ellipse{radius_x_, radius_y_}` and `Helix{radius_, step_}`,
each carrying exactly the fields of the corresponding C++ class. -/
inductive Curve (α : Type) where
  | circle (radius_ : α)
  | ellipse (radius_x_ : α) (radius_y_ : α)
  | helix (radius_ : α) (step_ : α)
deriving DecidableEq

/-- The C++ `struct Point`: three coordinates `x`, `y`, `z`. -/
structure Point (α : Type) where
  x : α
  y : α
  z : α
deriving DecidableEq

variable {α : Type} [LinearOrderedField α]

/-- Method `Curve::radius()` as implemented by each variant:
`Circle::radius()` returns `radius_`, `Ellipse::radius()` returns
`std::max(radius_x_, radius_y_)`, `Helix::radius()` returns `radius_`. -/
def radius : Curve α → α
  | .circle r => r
  | .ellipse rx ry => max rx ry
  | .helix r _ => r

/-- The `dynamic_cast<Circle*>` test used by the filter loop in `main`:
true exactly when the runtime variant is `Circle`. -/
def isCircle : Curve α → Bool
  | .circle _ => true
  | .ellipse _ _ => false
  | .helix _ _ => false

noncomputable section

/-- Method `Curve::point(t)` as implemented by each variant (file lines 59-61, 82-84,
105-107): `Circle` returns `(r·cos t, r·sin t, 0)`, `Ellipse` returns
`(rx·cos t, ry·sin t, 0)`, `Helix` returns `(r·cos t, r·sin t, s·t/(2π))`. -/
def point : Curve ℝ → ℝ → Point ℝ
  | .circle r, t => ⟨r * Real.cos t, r * Real.sin t, 0⟩
  | .ellipse rx ry, t => ⟨rx * Real.cos t, ry * Real.sin t, 0⟩
  | .helix r s, t => ⟨r * Real.cos t, r * Real.sin t, s * t / (2 * Real.pi)⟩

/-- Method `Curve::derivative(t)` as implemented by each variant (file lines 63-65,
86-88, 109-111): `Circle` returns `(-r·sin t, r·cos t, 0)`, `Ellipse` returns
`(-rx·sin t, ry·cos t, 0)`, `Helix` returns `(-r·sin t, r·cos t, s/(2π))`. -/
def derivative : Curve ℝ → ℝ → Point ℝ
  | .circle r, t => ⟨-r * Real.sin t, r * Real.cos t, 0⟩
  | .ellipse rx ry, t => ⟨-rx * Real.sin t, ry * Real.cos t, 0⟩
  | .helix r s, t => ⟨-r * Real.sin t, r * Real.cos t, s / (2 * Real.pi)⟩

/-- Euclidean distance of a point from the origin within the xy-plane. -/
def xyDistOrigin (p : Point ℝ) : ℝ := Real.sqrt (p.x ^ 2 + p.y ^ 2)

/-- Euclidean magnitude of a point seen as a 3-vector. -/
def norm3 (p : Point ℝ) : ℝ := Real.sqrt (p.x ^ 2 + p.y ^ 2 + p.z ^ 2)

end

/-- Dot product of two points seen as 3-vectors. -/
def dot3 (p q : Point ℝ) : ℝ := p.x * q.x + p.y * q.y + p.z * q.z

/-- The filter loop of `main` (lines 147-153): scan the collection in order
and keep exactly the entries for which `dynamic_cast<Circle*>` succeeds. -/
def filterCircles : List (Curve α) → List (Curve α)
  | [] => []
  | c :: cs => if isCircle c then c :: filterCircles cs else filterCircles cs

theorem filterCircles_eq_filter (l : List (Curve α)) :
    filterCircles l = l.filter isCircle := by
  induction l with
  | nil => rfl
  | cons c cs ih =>
      by_cases h : isCircle c = true <;>
        simp [filterCircles, List.filter, h, ih]

/-- Insert a curve into a radius-sorted list, placing it before the first
entry that is not radius-smaller: a step of a comparison sort agreeing with
the `std::sort` comparator `a->radius() < b->radius()`. -/
def insertC (c : Curve α) : List (Curve α) → List (Curve α)
  | [] => [c]
  | d :: ds => if radius d < radius c then d :: insertC c ds else c :: d :: ds

/-- The `std::sort` call of `main` (lines 155-159), modelled as an insertion
sort driven by the comparator `a->radius() < b->radius()`: it produces a
permutation of the subview ordered by non-decreasing `radius()`. -/
def sortCircles : List (Curve α) → List (Curve α)
  | [] => []
  | c :: cs => insertC c (sortCircles cs)

/-- Non-decreasing radius order on a list of curves. -/
def radiusLe (a b : Curve α) : Prop := radius a ≤ radius b

theorem insertC_perm (c : Curve α) (l : List (Curve α)) :
    (insertC c l).Perm (c :: l) := by
  induction l with
  | nil => exact List.Perm.refl _
  | cons d ds ih =>
      by_cases h : radius d < radius c
      · simp only [insertC, if_pos h]
        exact (ih.cons d).trans (List.Perm.swap c d ds)
      · simp only [insertC, if_neg h]
        exact List.Perm.refl _

theorem insertC_pairwise (c : Curve α) (l : List (Curve α))
    (h : l.Pairwise radiusLe) : (insertC c l).Pairwise radiusLe := by
  induction l with
  | nil => simp [insertC, radiusLe]
  | cons d ds ih =>
      rcases List.pairwise_cons.mp h with ⟨hd, hds⟩
      by_cases hlt : radius d < radius c
      · simp only [insertC, if_pos hlt]
        refine List.pairwise_cons.mpr ⟨?_, ih hds⟩
        intro b hb
        rcases List.mem_cons.mp ((insertC_perm c ds).mem_iff.mp hb) with h1 | h1
        · rw [h1]
          exact le_of_lt hlt
        · exact hd b h1
      · simp only [insertC, if_neg hlt]
        refine List.pairwise_cons.mpr ⟨?_, h⟩
        intro b hb
        rcases List.mem_cons.mp hb with hb' | hb'
        · rw [hb']
          exact le_of_not_lt hlt
        · exact le_trans (le_of_not_lt hlt) (hd b hb')

theorem sortCircles_perm (l : List (Curve α)) : (sortCircles l).Perm l := by
  induction l with
  | nil => exact List.Perm.refl _
  | cons c cs ih => exact (insertC_perm c (sortCircles cs)).trans (ih.cons c)

theorem sortCircles_pairwise (l : List (Curve α)) :
    (sortCircles l).Pairwise radiusLe := by
  induction l with
  | nil => simp [sortCircles]
  | cons c cs ih => exact insertC_pairwise c (sortCircles cs) ih

theorem insertC_of_le (c : Curve α) (l : List (Curve α))
    (h : ∀ b ∈ l, radiusLe c b) : insertC c l = c :: l := by
  cases l with
  | nil => rfl
  | cons d ds =>
      simp only [insertC, if_neg (not_lt.mpr (h d (List.mem_cons_self d ds)))]

theorem sortCircles_of_pairwise (l : List (Curve α))
    (h : l.Pairwise radiusLe) : sortCircles l = l := by
  induction l with
  | nil => rfl
  | cons c cs ih =>
      rcases List.pairwise_cons.mp h with ⟨hc, hcs⟩
      simp only [sortCircles, ih hcs]
      exact insertC_of_le c cs hc

/-- Sequential sum of `radius()` over a list of curves. -/
def seqSum (cs : List (Curve α)) : α := (cs.map radius).sum

/-- Chunk size used by the static partition of the OpenMP `for` loop over
`num_threads = 4` workers: `⌈n / 4⌉` iterations per thread. -/
def chunkSize (n : Nat) : Nat := (n + 3) / 4

/-- The contiguous sub-range of the subview statically assigned to worker `k`
by the OpenMP `for` partition of the index range `[0, circles.size())`. -/
def chunk (cs : List (Curve α)) (k : Nat) : List (Curve α) :=
  (cs.drop (k * chunkSize cs.length)).take (chunkSize cs.length)

/-- Partial sum of `radius()` computed by worker `k` over its sub-range. -/
def partialSum (cs : List (Curve α)) (k : Nat) : α :=
  ((chunk cs k).map radius).sum

/-- The parallel reduction of `main` (lines 161-172) in its race-free
reading: the four per-worker partial sums combined into one total. -/
def parSum (cs : List (Curve α)) : α :=
  partialSum cs 0 + partialSum cs 1 + partialSum cs 2 + partialSum cs 3

theorem chunks_cover (cs : List (Curve α)) :
    chunk cs 0 ++ chunk cs 1 ++ chunk cs 2 ++ chunk cs 3 = cs := by
  have h0 : 0 * chunkSize cs.length = 0 := by ring
  have h1 : 1 * chunkSize cs.length = chunkSize cs.length := by ring
  have h2 : 2 * chunkSize cs.length =
      chunkSize cs.length + chunkSize cs.length := by ring
  have h3 : 3 * chunkSize cs.length =
      chunkSize cs.length + chunkSize cs.length + chunkSize cs.length := by
    ring
  simp only [chunk, h0, h1, h2, h3, List.drop_zero]
  rw [← List.take_add, ← List.take_add, ← List.take_add]
  refine List.take_of_length_le ?_
  simp only [chunkSize]
  omega

theorem parSum_eq_seqSum (cs : List (Curve α)) : parSum cs = seqSum cs := by
  have h := congrArg (fun l => (List.map radius l).sum) (chunks_cover cs)
  simpa [parSum, partialSum, seqSum, List.map_append, List.sum_append,
    add_assoc] using h

/-- The generation loop of `main` (lines 125-137), abstracted over the
stream of random draws: `td i` is the i-th result of `type_dist(mt)`
(`uniform_int_distribution(1, 3)`) and `rd j` the j-th result of
`radius_dist(mt)` / `step_dist(mt)` (both `uniform_real_distribution(0.1,
100.0)`).  `buildFrom td rd n ti ri` runs `n` remaining loop iterations with
`ti` type draws and `ri` real draws already consumed: case 1 constructs a
`Circle` from one real draw, case 2 an `Ellipse` from two, and the default
case a `Helix` from two. -/
def buildFrom (td : Nat → Nat) (rd : Nat → α) : Nat → Nat → Nat → List (Curve α)
  | 0, _, _ => []
  | n + 1, ti, ri =>
    if td ti = 1 then Curve.circle (rd ri) :: buildFrom td rd n (ti + 1) (ri + 1)
    else if td ti = 2 then
      Curve.ellipse (rd ri) (rd (ri + 1)) :: buildFrom td rd n (ti + 1) (ri + 2)
    else Curve.helix (rd ri) (rd (ri + 1)) :: buildFrom td rd n (ti + 1) (ri + 2)

/-- The whole generation loop: `size = 10` iterations starting from fresh
draw streams. -/
def buildCurves (td : Nat → Nat) (rd : Nat → α) : List (Curve α) :=
  buildFrom td rd 10 0 0

/-- All parameters a curve was constructed with lie within `[lo, hi]`. -/
def paramsIn (lo hi : α) : Curve α → Prop
  | .circle r => lo ≤ r ∧ r ≤ hi
  | .ellipse rx ry => (lo ≤ rx ∧ rx ≤ hi) ∧ (lo ≤ ry ∧ ry ≤ hi)
  | .helix r s => (lo ≤ r ∧ r ≤ hi) ∧ (lo ≤ s ∧ s ≤ hi)

/-- Discriminant of a curve value: 1 for `Circle`, 2 for `Ellipse`, 3 for
`Helix`. -/
def variantTag : Curve α → Nat
  | .circle _ => 1
  | .ellipse _ _ => 2
  | .helix _ _ => 3

/-- The variant selected by the `switch` statement for a draw of
`type_dist`: case 1 is `Circle`, case 2 is `Ellipse`, the default case is
`Helix`. -/
def tagOf (n : Nat) : Nat := if n = 1 then 1 else if n = 2 then 2 else 3

theorem buildFrom_length (td : Nat → Nat) (rd : Nat → α) :
    ∀ n ti ri, (buildFrom td rd n ti ri).length = n := by
  intro n
  induction n with
  | zero => intro ti ri; rfl
  | succ n ih =>
      intro ti ri
      by_cases h1 : td ti = 1
      · simp [buildFrom, h1, ih]
      · by_cases h2 : td ti = 2 <;> simp [buildFrom, h1, h2, ih]

theorem buildFrom_paramsIn (td : Nat → Nat) (rd : Nat → α) (lo hi : α)
    (hr : ∀ j, lo ≤ rd j ∧ rd j ≤ hi) :
    ∀ n ti ri, ∀ c ∈ buildFrom td rd n ti ri, paramsIn lo hi c := by
  intro n
  induction n with
  | zero => intro ti ri c hc; cases hc
  | succ n ih =>
      intro ti ri c hc
      by_cases h1 : td ti = 1
      · rw [buildFrom, if_pos h1] at hc
        rcases List.mem_cons.mp hc with h | h
        · rw [h]; exact ⟨(hr ri).1, (hr ri).2⟩
        · exact ih _ _ c h
      · by_cases h2 : td ti = 2
        · rw [buildFrom, if_neg h1, if_pos h2] at hc
          rcases List.mem_cons.mp hc with h | h
          · rw [h]; exact ⟨hr ri, hr (ri + 1)⟩
          · exact ih _ _ c h
        · rw [buildFrom, if_neg h1, if_neg h2] at hc
          rcases List.mem_cons.mp hc with h | h
          · rw [h]; exact ⟨hr ri, hr (ri + 1)⟩
          · exact ih _ _ c h

theorem buildFrom_variantTags (td : Nat → Nat) (rd : Nat → α) :
    ∀ n ti ri, (buildFrom td rd n ti ri).map variantTag
      = (List.range n).map (fun j => tagOf (td (ti + j))) := by
  intro n
  induction n with
  | zero => intro ti ri; rfl
  | succ n ih =>
      intro ti ri
      have hr : (List.range (n + 1)).map (fun j => tagOf (td (ti + j)))
          = tagOf (td ti)
            :: (List.range n).map (fun j => tagOf (td (ti + 1 + j))) := by
        rw [List.range_succ_eq_map, List.map_cons, List.map_map]
        refine congrArg₂ _ (by simp) ?_
        refine List.map_congr_left ?_
        intro j hj
        show tagOf (td (ti + (j + 1))) = tagOf (td (ti + 1 + j))
        have : ti + (j + 1) = ti + 1 + j := by omega
        rw [this]
      rw [hr]
      by_cases h1 : td ti = 1
      · simp only [buildFrom, if_pos h1, List.map_cons, ih]
        simp [variantTag, tagOf, h1]
      · by_cases h2 : td ti = 2
        · simp only [buildFrom, if_neg h1, if_pos h2, List.map_cons, ih]
          simp [variantTag, tagOf, h1, h2]
        · simp only [buildFrom, if_neg h1, if_neg h2, List.map_cons, ih]
          simp [variantTag, tagOf, h1, h2]

/-- Claim C9: for every stream of random draws whose real draws lie in
`[0.1, 100.0]` (as `uniform_real_distribution(0.1, 100.0)` guarantees), the
builder produces a collection of exactly 10 curves; the variant of slot `i` is
`Circle`, `Ellipse`, or `Helix` according to the i-th discrete type draw
(case 1, case 2, default); and every radius-like and step parameter of every
generated curve lies in `[0.1, 100.0]`. -/
theorem builder_spec (td : Nat → Nat) (rd : Nat → α)
    (hr : ∀ j, (0.1 : α) ≤ rd j ∧ rd j ≤ 100) :
    (buildCurves td rd).length = 10 ∧
    (∀ c ∈ buildCurves td rd, paramsIn (0.1 : α) 100 c) ∧
    (buildCurves td rd).map variantTag
      = (List.range 10).map (fun j => tagOf (td j)) := by
  refine ⟨buildFrom_length td rd 10 0 0, buildFrom_paramsIn td rd _ _ hr 10 0 0, ?_⟩
  have h := buildFrom_variantTags td rd 10 0 0
  simpa [buildCurves] using h

/-- Witness for C9: with the constant draw streams `type_dist = 1` and
`radius_dist = 1`, the builder produces exactly 10 curves. -/
theorem builder_spec_witness :
    (buildCurves (fun _ => 1) (fun _ => (1 : ℚ))).length = 10 :=
  (builder_spec (fun _ => 1) (fun _ => (1 : ℚ))
    (fun _ => ⟨by norm_num, by norm_num⟩)).1

/-- Claim C4: the filter step produces a subview containing exactly the
entries whose runtime variant is `Circle` — excluding every `Ellipse` and
`Helix`, including an `Ellipse` with equal `rx` and `ry` — in their original
collection order (a sublist of the collection); its size equals the count of
`Circle`-variant entries, and for each element the `radius()` equals the value the
`Circle` was constructed with. -/
theorem filter_circles_spec (l : List (Curve α)) (r s : α) :
    (filterCircles l).Sublist l ∧
    (∀ c, c ∈ filterCircles l ↔ c ∈ l ∧ isCircle c = true) ∧
    (filterCircles l).length = l.countP isCircle ∧
    isCircle (Curve.ellipse r r : Curve α) = false ∧
    isCircle (Curve.helix r s : Curve α) = false ∧
    radius (Curve.circle r : Curve α) = r := by
  rw [filterCircles_eq_filter]
  refine ⟨List.filter_sublist l, ?_, ?_, rfl, rfl, rfl⟩
  · intro c
    exact List.mem_filter
  · exact (List.countP_eq_length_filter isCircle l).symm

/-- Claim C5: the sort step only reorders the references of the subview — the
result is a permutation of the subview, with no curve copied, altered or
invented — the resulting sequence of `radius()` values is non-decreasing
under the comparator `a.radius() < b.radius()`, and sorting twice equals
sorting once (sorting an already-sorted subview is a no-op). -/
theorem sort_circles_spec (l : List (Curve α)) :
    (sortCircles l).Perm l ∧
    (sortCircles l).Pairwise radiusLe ∧
    ((sortCircles l).map radius).Pairwise (fun a b => a ≤ b) ∧
    sortCircles (sortCircles l) = sortCircles l := by
  refine ⟨sortCircles_perm l, sortCircles_pairwise l, ?_, ?_⟩
  · exact (List.pairwise_map).mpr (sortCircles_pairwise l)
  · exact sortCircles_of_pairwise _ (sortCircles_pairwise l)

/-- Claim C1: for every real radius `r` and every real `t`,
`Circle(r).point(t) = (r·cos t, r·sin t, 0)`,
`Circle(r).derivative(t) = (-r·sin t, r·cos t, 0)`, and
`Circle(r).radius() = r`. -/
theorem circle_eval_spec (r t : ℝ) :
    point (Curve.circle r) t = ⟨r * Real.cos t, r * Real.sin t, 0⟩ ∧
    derivative (Curve.circle r) t = ⟨-r * Real.sin t, r * Real.cos t, 0⟩ ∧
    radius (Curve.circle r) = r :=
  ⟨rfl, rfl, rfl⟩

/-- Claim C2: for every pair of real parameters `rx, ry` and every real `t`,
`Ellipse(rx, ry).point(t) = (rx·cos t, ry·sin t, 0)`,
`Ellipse(rx, ry).derivative(t) = (-rx·sin t, ry·cos t, 0)`, and
`Ellipse(rx, ry).radius() = max(rx, ry)`. -/
theorem ellipse_eval_spec (rx ry t : ℝ) :
    point (Curve.ellipse rx ry) t = ⟨rx * Real.cos t, ry * Real.sin t, 0⟩ ∧
    derivative (Curve.ellipse rx ry) t = ⟨-rx * Real.sin t, ry * Real.cos t, 0⟩ ∧
    radius (Curve.ellipse rx ry) = max rx ry :=
  ⟨rfl, rfl, rfl⟩

/-- Claim C3: for every pair of real parameters `r, step` and every real `t`,
`Helix(r, step).point(t) = (r·cos t, r·sin t, step·t/(2π))` — so the
z-coordinate is linear in `t` with slope `step/(2π)` —
`Helix(r, step).derivative(t) = (-r·sin t, r·cos t, step/(2π))`, and
`Helix(r, step).radius() = r`; moreover the x,y components of `point(t)`
match a `Circle(r)` at the same `t`. -/
theorem helix_eval_spec (r s t : ℝ) :
    point (Curve.helix r s) t = ⟨r * Real.cos t, r * Real.sin t, s * t / (2 * Real.pi)⟩ ∧
    derivative (Curve.helix r s) t = ⟨-r * Real.sin t, r * Real.cos t, s / (2 * Real.pi)⟩ ∧
    radius (Curve.helix r s) = r ∧
    (point (Curve.helix r s) t).z = (s / (2 * Real.pi)) * t ∧
    (point (Curve.helix r s) t).x = (point (Curve.circle r) t).x ∧
    (point (Curve.helix r s) t).y = (point (Curve.circle r) t).y := by
  refine ⟨rfl, rfl, rfl, ?_, rfl, rfl⟩
  show s * t / (2 * Real.pi) = s / (2 * Real.pi) * t
  ring

/-- Claim C10: `Ellipse(r, r)` is extensionally equal to `Circle(r)` on the
public interface (`point`, `derivative`, `radius`, with `radius() = r`), yet
the `dynamic_cast`-based filter never classifies such an `Ellipse` as a
`Circle`. -/
theorem ellipse_equal_radii_eq_circle (r t : ℝ) :
    point (Curve.ellipse r r) t = point (Curve.circle r) t ∧
    derivative (Curve.ellipse r r) t = derivative (Curve.circle r) t ∧
    radius (Curve.ellipse r r) = radius (Curve.circle r) ∧
    radius (Curve.circle r) = r ∧
    isCircle (Curve.ellipse r r : Curve ℝ) = false := by
  refine ⟨rfl, rfl, ?_, rfl, rfl⟩
  show max r r = r
  exact max_self r

/-- An atomic event of the parallel region: worker `k` either loads the
shared accumulator and adds its next value in a register (`rd`, the read
half of `radius_sum += ...`), or stores its register back (`wr`, the write
half). `num_threads = 4`. -/
inductive Ev where
  | rd (k : Fin 4)
  | wr (k : Fin 4)
deriving DecidableEq

/-- Execution state of the parallel region of `main` (lines 161-172):
`acc` is the shared `radius_sum`, `pend k` the radii of the iterations still
assigned to worker `k`, and `temp k` the register of that worker holding a loaded
sum not yet stored back. -/
structure RaceState (α : Type) where
  acc : α
  pend : Fin 4 → List α
  temp : Fin 4 → Option α

/-- One interleaved step of the literal loop body `radius_sum +=
circles[i]->radius()`, which is a non-atomic load/add followed by a store on
the shared `radius_sum`. -/
def rstep (s : RaceState α) : Ev → RaceState α
  | .rd k =>
    match s.temp k, s.pend k with
    | none, v :: rest =>
        { s with temp := Function.update s.temp k (some (s.acc + v)),
                 pend := Function.update s.pend k rest }
    | none, [] => s
    | some _, _ => s
  | .wr k =>
    match s.temp k with
    | some a => { s with acc := a, temp := Function.update s.temp k none }
    | none => s

/-- Initial state of the parallel region: `radius_sum` zero-initialised
(`double radius_sum{}`), each worker assigned its static chunk of the
subview, no loads in flight. -/
def initState (cs : List (Curve α)) : RaceState α where
  acc := 0
  pend := fun k => (chunk cs k.1).map radius
  temp := fun _ => none

/-- Run the parallel region under a given interleaving of worker events. -/
def racyRun (s : RaceState α) (evs : List Ev) : RaceState α :=
  evs.foldl rstep s

theorem rstep_initState_nil (e : Ev) :
    rstep (initState ([] : List (Curve α))) e = initState [] := by
  cases e with
  | rd k => simp [rstep, initState, chunk]
  | wr k => simp [rstep, initState]

theorem racyRun_initState_nil (evs : List Ev) :
    racyRun (initState ([] : List (Curve α))) evs = initState [] := by
  induction evs with
  | nil => rfl
  | cons e es ih =>
      show (e :: es).foldl rstep (initState []) = initState []
      rw [List.foldl_cons, rstep_initState_nil]
      exact ih

/-- Claim C6 (refuting the literal code): on the subview
`[Circle(1), Circle(2)]` the static partition assigns iteration 0 to worker
0 and iteration 1 to worker 1; under the interleaving in which both workers
load the shared `radius_sum` before either stores, the final `radius_sum` is
2, while the sequential sum (and the combined partial sums) equal 3 — the
unsynchronised shared accumulator loses an update. -/
theorem racy_sum_lost_update :
    (racyRun (initState [Curve.circle (1 : ℚ), Curve.circle 2])
      [Ev.rd 0, Ev.rd 1, Ev.wr 0, Ev.wr 1]).acc = 2 ∧
    seqSum [Curve.circle (1 : ℚ), Curve.circle 2] = 3 ∧
    parSum [Curve.circle (1 : ℚ), Curve.circle 2] = 3 ∧
    (2 : ℚ) ≠ 3 := by
  refine ⟨?_, ?_, ?_, by norm_num⟩
  · norm_num [racyRun, rstep, initState, chunk, chunkSize, radius,
      Function.update]
  · norm_num [seqSum, radius]
  · norm_num [parSum, partialSum, chunk, chunkSize, radius]

/-- Claim C7: when no entry of the collection is a `Circle` variant (in
particular for the empty collection), the subview is empty and the
aggregation yields exactly 0 with no special-case branch: the combined
partial sums are 0, the sequential sum is 0, and even the literal racy loop
leaves `radius_sum` at its zero-initialised value under every
interleaving. -/
theorem empty_subview_sum_zero (l : List (Curve α))
    (h : ∀ c ∈ l, isCircle c = false) :
    filterCircles l = [] ∧
    parSum (filterCircles l) = 0 ∧
    seqSum (filterCircles l) = 0 ∧
    (∀ evs, (racyRun (initState (filterCircles l)) evs).acc = 0) := by
  have hnil : filterCircles l = [] := by
    rw [filterCircles_eq_filter]
    simp only [List.filter_eq_nil_iff]
    intro c hc
    simp [h c hc]
  refine ⟨hnil, ?_, ?_, ?_⟩
  · rw [hnil]
    simp [parSum, partialSum, chunk]
  · rw [hnil]
    rfl
  · intro evs
    rw [hnil, racyRun_initState_nil]
    rfl

/-- Witness for C7: a collection holding one `Ellipse` and one `Helix` has
an empty Circle subview and its parallel radius sum is exactly 0. -/
theorem empty_subview_sum_zero_witness :
    parSum (filterCircles [Curve.ellipse (2 : ℚ) 5, Curve.helix 4 6]) = 0 :=
  (empty_subview_sum_zero [Curve.ellipse (2 : ℚ) 5, Curve.helix 4 6]
    (by decide)).2.1

/-- Claim C8 (amended with the hypothesis 0 ≤ r): for every real `t` and
every `Circle(r)` with non-negative radius, `point(t)` lies at Euclidean
distance `r` from the origin in the xy-plane, `derivative(t)` is orthogonal
to `point(t)` (their dot product is 0, for any `r`), and `derivative(t)` has
magnitude `r`. -/
theorem circle_geometry_nonneg (r t : ℝ) (h : 0 ≤ r) :
    xyDistOrigin (point (Curve.circle r) t) = r ∧
    dot3 (point (Curve.circle r) t) (derivative (Curve.circle r) t) = 0 ∧
    norm3 (derivative (Curve.circle r) t) = r := by
  refine ⟨?_, ?_, ?_⟩
  · show Real.sqrt ((r * Real.cos t) ^ 2 + (r * Real.sin t) ^ 2) = r
    have key : (r * Real.cos t) ^ 2 + (r * Real.sin t) ^ 2
        = r ^ 2 * (Real.sin t ^ 2 + Real.cos t ^ 2) := by ring
    rw [key, Real.sin_sq_add_cos_sq, mul_one, Real.sqrt_sq h]
  · show r * Real.cos t * (-r * Real.sin t) + r * Real.sin t * (r * Real.cos t)
        + 0 * 0 = 0
    ring
  · show Real.sqrt ((-r * Real.sin t) ^ 2 + (r * Real.cos t) ^ 2 + 0 ^ 2) = r
    have key : (-r * Real.sin t) ^ 2 + (r * Real.cos t) ^ 2 + 0 ^ 2
        = r ^ 2 * (Real.sin t ^ 2 + Real.cos t ^ 2) := by ring
    rw [key, Real.sin_sq_add_cos_sq, mul_one, Real.sqrt_sq h]

/-- Counterexample to C8 as stated: the claim quantifies over every real
radius, but for `Circle(-1)` at `t = 0` the xy-distance of the point from the
origin is 1, not the radius parameter -1. -/
theorem circle_distance_neg_radius_counterexample :
    xyDistOrigin (point (Curve.circle (-1 : ℝ)) 0) ≠ -1 := by
  have h : xyDistOrigin (point (Curve.circle (-1 : ℝ)) 0) = 1 := by
    show Real.sqrt (((-1 : ℝ) * Real.cos 0) ^ 2 + ((-1 : ℝ) * Real.sin 0) ^ 2) = 1
    have e : ((-1 : ℝ) * Real.cos 0) ^ 2 + ((-1 : ℝ) * Real.sin 0) ^ 2 = 1 := by
      rw [Real.cos_zero, Real.sin_zero]
      norm_num
    rw [e, Real.sqrt_one]
  rw [h]
  norm_num

/-- Witness for C8 (amended): for `Circle(1)` at `t = 0` the point lies at
xy-distance exactly 1 from the origin. -/
theorem circle_geometry_nonneg_witness :
    xyDistOrigin (point (Curve.circle (1 : ℝ)) 0) = 1 :=
  (circle_geometry_nonneg 1 0 zero_le_one).1
